import Mathlib

/-!
# jcache: an in-memory cache with expiring entries

A shallow embedding of `jcache.go` and `errors.go`.

* `time.Time` and `time.Duration` are integers counting nanoseconds on one
  time line; `Time.After` is the strict order and `Time.Add` is addition.
* A Go `map[string]item` is a finite map with pairwise distinct keys, here an
  `AList` (an association list carrying the proof that no key repeats).
  `len` is the number of stored pairs, `m[k]` yields the zero `item` for a
  missing key, and `range` visits the pairs in stored order. Go leaves that
  order unspecified: `sweep_order_irrelevant` and
  `bulk_delete_order_irrelevant` show that a sweep leaves the same map for
  every visiting order, and what is said of `Keys` is said up to order.
* The empty interface `any` holding a payload of type `α` is `Option α`,
  with `none` for the `nil` interface value.
* Every method has a pointer receiver, so it is a function from the cache
  before the call to the cache after it, together with the returned value
  when the method has one. The time read by `time.Now()` inside `Set` is an
  explicit argument `clock`.
* The mutex and the stop channel carry no data of the sequential behaviour
  and are left out of the record; the background sweeper is the method
  `Clean` called with the tick.
* What a method does to the mutex is kept apart, as the sequence of `Event`s
  it makes in program order (`GetEvents`, `SetEvents`, ...); `lockCovers`
  replays such a sequence against the state of the lock.
* The two critical sections of `Clean` under Collect are the scan `dead` and
  the loop `deleteDead`; `Clean_collect_eq` shows that `Clean` is the two in
  a row, so a call of another method can be placed between them.
-/

namespace jcache

/-- Go `time.Time`: nanoseconds on a single time line, the zero `Time` at 0. -/
abbrev Time := Int

/-- Go `time.Duration`: a signed count of nanoseconds. -/
abbrev Duration := Int

/-- Method `t.After(u)`: whether instant `t` is strictly later than `u`. -/
def Time.After (t u : Time) : Bool := decide (u < t)

/-- Method `t.Add(d)`: the instant `t + d`. -/
def Time.Add (t : Time) (d : Duration) : Time := t + d

/-- Type `CleanupStrategy int`. -/
abbrev CleanupStrategy := Int

/-- Constant `cleanupStrategyOnTheFly`, the first `iota`. -/
def cleanupStrategyOnTheFly : CleanupStrategy := 0

/-- Constant `cleanupStrategyCollect`, the second `iota`. -/
def cleanupStrategyCollect : CleanupStrategy := 1

/-- Constant `defaultInterval`, one minute in nanoseconds. -/
def defaultInterval : Duration := 60 * 1000000000

/-- Constant `defaultCapacity`. -/
def defaultCapacity : Int := 100000

/-- Constant `defaultStrategy`. -/
def defaultStrategy : CleanupStrategy := cleanupStrategyOnTheFly

/-- Type `JCError string` of `errors.go`. -/
abbrev JCError := String

/-- Function `NewJCError`. -/
def NewJCError (msg : String) : JCError := msg

/-- Variable `ErrorCacheIsFull`. -/
def ErrorCacheIsFull : JCError := NewJCError "items is full"

/-- Struct `item`: the stored payload and the instant after which it is dead. -/
structure item (α : Type) where
  value : Option α
  deadAfter : Time
deriving DecidableEq, Repr

/-- Struct `Item`: a key with its payload, as handed to callers. -/
structure Item (α : Type) where
  Key : String
  Value : Option α
deriving DecidableEq, Repr

/-- Go map type `map[string]item`. -/
abbrev ItemMap (α : Type) := AList (fun _ : String => item α)

/-- The zero value of `item`. -/
def zeroItem {α : Type} : item α := ⟨none, 0⟩

/-- Index expression `m[key]`: the stored item, or the zero item. -/
def ItemMap.index {α : Type} (m : ItemMap α) (key : String) : item α :=
  (m.lookup key).getD zeroItem

/-- Builtin `len(m)`. -/
def ItemMap.len {α : Type} (m : ItemMap α) : Int := (m.entries.length : Int)

/-- Struct `JustCache`, without the mutex and the stop channel. -/
structure JustCache (α : Type) where
  cleanupStrategy : CleanupStrategy
  cleanupInterval : Duration
  items : ItemMap α
  capacity : Int

namespace JustCache

variable {α : Type}

/-- Function `New`. -/
def New (interval : Duration) (capacity : Int) : JustCache α :=
  { cleanupStrategy := cleanupStrategyOnTheFly
    cleanupInterval := interval
    items := ∅
    capacity := capacity }

/-- Method `WithStrategy`; it returns its receiver, so the result is the cache after
the call. -/
def WithStrategy (jc : JustCache α) (strategy : CleanupStrategy) : JustCache α :=
  { jc with cleanupStrategy := strategy }

/-- Method `WithCleanupInterval`; it returns its receiver, so the result is the cache after
the call. -/
def WithCleanupInterval (jc : JustCache α) (interval : Duration) : JustCache α :=
  { jc with cleanupInterval := interval }

/-- Method `WithCapacity`; it returns its receiver, so the result is the cache after
the call. -/
def WithCapacity (jc : JustCache α) (capacity : Int) : JustCache α :=
  { jc with capacity := capacity }

/-- Function `Default`. -/
def Default : JustCache α :=
  (New defaultInterval defaultCapacity).WithStrategy defaultStrategy

/-- Method `Get`: the payload of `items[key]`. -/
def Get (jc : JustCache α) (key : String) : Option α × JustCache α :=
  ((jc.items.index key).value, jc)

/-- Method `Has`: the second result of the two-valued index expression. -/
def Has (jc : JustCache α) (key : String) : Bool × JustCache α :=
  ((jc.items.lookup key).isSome, jc)

/-- Method `Item`. -/
def Item (jc : JustCache α) (key : String) : jcache.Item α × JustCache α :=
  let r := jc.Get key
  (⟨key, r.1⟩, r.2)

/-- Method `Set`; `clock` is the value of `time.Now()`. -/
def Set (jc : JustCache α) (clock : Time) (key : String) (value : Option α)
    (ttl : Duration) : Option JCError × JustCache α :=
  if jc.items.len ≥ jc.capacity then
    (some ErrorCacheIsFull, jc)
  else
    (none, { jc with items := jc.items.insert key ⟨value, clock.Add ttl⟩ })

/-- Method `Del`. -/
def Del (jc : JustCache α) (key : String) : JustCache α :=
  { jc with items := jc.items.erase key }

/-- Method `Keys`: the loop appends each visited key. -/
def Keys (jc : JustCache α) : List String × JustCache α :=
  (jc.items.entries.foldl (fun keys e => keys ++ [e.1]) [], jc)

/-- Method `Items`: the loop appends each visited key with its payload. -/
def Items (jc : JustCache α) : List (jcache.Item α) × JustCache α :=
  (jc.items.entries.foldl (fun items e => items ++ [⟨e.1, e.2.value⟩]) [], jc)

/-- Method `Clear`. -/
def Clear (jc : JustCache α) : JustCache α :=
  { jc with items := ∅ }

/-- Method `dead`: the keys whose item is dead at `tick`. -/
def dead (jc : JustCache α) (tick : Time) : List String × JustCache α :=
  (jc.items.entries.foldl
    (fun dead e => if tick.After e.2.deadAfter then dead ++ [e.1] else dead) [], jc)

/-- Method `Clean`: one sweep with reference time `now`. The `switch` has no
default case, so a strategy other than the two constants sweeps nothing. -/
def Clean (jc : JustCache α) (now : Time) : JustCache α :=
  if jc.cleanupStrategy = cleanupStrategyOnTheFly then
    { jc with
      items := jc.items.entries.foldl
                 (fun m e => if now.After e.2.deadAfter then m.erase e.1 else m) jc.items }
  else if jc.cleanupStrategy = cleanupStrategyCollect then
    match jc.dead now with
    | (dead, jc) => { jc with items := dead.foldl (fun m key => m.erase key) jc.items }
  else
    jc

end JustCache

/-- The arguments of one call of `Set`, with the clock reading of that call. -/
structure SetCall (α : Type) where
  clock : Time
  key : String
  value : Option α
  ttl : Duration

/-- The calls of `Set` made one after the other, as in `TestCapacity`: the
returned errors in call order, and the cache after the last call. -/
def setEach {α : Type} (jc : JustCache α) : List (SetCall α) → List (Option JCError) × JustCache α
  | [] => ([], jc)
  | c :: rest =>
    let r := jc.Set c.clock c.key c.value c.ttl
    let rs := setEach r.2 rest
    (r.1 :: rs.1, rs.2)


/-- A value of the Go interface `error` that is not nil: a `JCError`, or a
value of another type, of which the string returned by `Error()` is kept. -/
inductive ErrorValue where
  | ofJCError (e : JCError)
  | other (msg : String)
deriving DecidableEq, Repr

/-- Go interface `error`; `none` is the nil error. -/
abbrev GoError := Option ErrorValue

/-- Method `JCError.Error`. -/
def JCError.Error (e : JCError) : String := e

/-- Method `Error()` of a non-nil `error`, by its type. -/
def ErrorValue.Error : ErrorValue → String
  | ErrorValue.ofJCError e => JCError.Error e
  | ErrorValue.other msg => msg

/-- Method `JCError.Is`. -/
def JCError.Is (e : JCError) (err : GoError) : Bool :=
  match err with
  | none => false
  | some x => decide (x.Error = e)

/-- The `error` returned by `Set`: nil, or the `JCError` as an interface value. -/
def asError (r : Option JCError) : GoError := r.map ErrorValue.ofJCError

/-- Standard library `errors.Is(err, target)` for an `err` that is nil or a
`JCError`. With a nil argument the result is `err == target`. A `JCError` is
comparable, has a method `Is` and no method `Unwrap`, so the chain of `err`
has one link and the result is `err == target || err.Is(target)`. -/
def errorsIs (err : Option JCError) (target : GoError) : Bool :=
  match err, target with
  | none, none => true
  | none, some _ => false
  | some _, none => false
  | some e, some t => decide (ErrorValue.ofJCError e = t) || JCError.Is e (some t)

/-- One call of a method that writes the map, with its arguments. -/
inductive Op (α : Type) where
  | set (clock : Time) (key : String) (value : Option α) (ttl : Duration)
  | del (key : String)
  | clear
  | clean (now : Time)

/-- The cache after one call. -/
def step {α : Type} (jc : JustCache α) : Op α → JustCache α
  | Op.set clock key value ttl => (jc.Set clock key value ttl).2
  | Op.del key => jc.Del key
  | Op.clear => jc.Clear
  | Op.clean now => jc.Clean now

/-- The cache after a sequence of calls. -/
def run {α : Type} (jc : JustCache α) (ops : List (Op α)) : JustCache α :=
  ops.foldl step jc

/-- The second critical section of the Collect case of `Clean`: the loop that
deletes every key of the list `dead` built by the scan. -/
def deleteDead {α : Type} (jc : JustCache α) (dead : List String) : JustCache α :=
  { jc with items := dead.foldl (fun m key => m.erase key) jc.items }

/-- What a method does to the mutex `mu` and to the map `items`, in program
order: the four mutex calls, an access that reads the map (index, `len`, one
step of `range`), an access that writes it (assignment, `delete`, `make`). -/
inductive Event where
  | RLock
  | RUnlock
  | Lock
  | Unlock
  | read
  | write
deriving DecidableEq, Repr

/-- How the running method holds the mutex. -/
inductive Held where
  | free
  | shared
  | exclusive
deriving DecidableEq, Repr

/-- One event against the lock state: the next lock state, or `none` for a
read with no lock held, a write without the exclusive lock, or a mutex call
that does not match the state. -/
def Held.after : Held → Event → Option Held
  | Held.free, Event.RLock => some Held.shared
  | Held.free, Event.Lock => some Held.exclusive
  | Held.shared, Event.RUnlock => some Held.free
  | Held.exclusive, Event.Unlock => some Held.free
  | Held.shared, Event.read => some Held.shared
  | Held.exclusive, Event.read => some Held.exclusive
  | Held.exclusive, Event.write => some Held.exclusive
  | _, _ => none

/-- The lock state after a sequence of events, `none` once an event failed. -/
def heldAfter : Held → List Event → Option Held
  | h, [] => some h
  | h, e :: rest =>
    match h.after e with
    | none => none
    | some h2 => heldAfter h2 rest

/-- Whether a method started with no lock held makes every access to the map
under a lock that covers it and returns with no lock held. -/
def lockCovers (events : List Event) : Bool :=
  decide (heldAfter Held.free events = some Held.free)

namespace JustCache

variable {α : Type}

/-- A `range` loop over the map: one read that starts the iteration, then for
each visited pair one read that yields it, followed by the events of the body. -/
def rangeEvents (m : ItemMap α) (body : (Σ _ : String, item α) → List Event) : List Event :=
  m.entries.foldl (fun events e => events ++ Event.read :: body e) [Event.read]

/-- The events of `Get`: `RLock`, the index expression, the deferred `RUnlock`. -/
def GetEvents (_jc : JustCache α) (_key : String) : List Event :=
  [Event.RLock, Event.read, Event.RUnlock]

/-- The events of `Has`. -/
def HasEvents (_jc : JustCache α) (_key : String) : List Event :=
  [Event.RLock, Event.read, Event.RUnlock]

/-- The events of `Item`, those of the call of `Get`. -/
def ItemEvents (jc : JustCache α) (key : String) : List Event :=
  jc.GetEvents key

/-- The events of `Set`: `len(jc.items)` in the condition, and when the
method goes on, `Lock`, the assignment, the deferred `Unlock`. -/
def SetEvents (jc : JustCache α) : List Event :=
  Event.read ::
    (if jc.items.len ≥ jc.capacity then [] else [Event.Lock, Event.write, Event.Unlock])

/-- The events of `Del`. -/
def DelEvents (_jc : JustCache α) (_key : String) : List Event :=
  [Event.Lock, Event.write, Event.Unlock]

/-- The events of `Keys`: `RLock`, `len(jc.items)`, the loop, the deferred `RUnlock`. -/
def KeysEvents (jc : JustCache α) : List Event :=
  [Event.RLock, Event.read] ++ rangeEvents jc.items (fun _ => []) ++ [Event.RUnlock]

/-- The events of `Items`. -/
def ItemsEvents (jc : JustCache α) : List Event :=
  [Event.RLock, Event.read] ++ rangeEvents jc.items (fun _ => []) ++ [Event.RUnlock]

/-- The events of `Clear`. -/
def ClearEvents (_jc : JustCache α) : List Event :=
  [Event.Lock, Event.write, Event.Unlock]

/-- The events of `dead`: `RLock`, the loop, the deferred `RUnlock`. -/
def deadEvents (jc : JustCache α) (_tick : Time) : List Event :=
  [Event.RLock] ++ rangeEvents jc.items (fun _ => []) ++ [Event.RUnlock]

/-- The events of `Clean`. OnTheFly: the loop over the map, with `Lock`,
`delete`, `Unlock` in the body for a dead pair. Collect: the call of `dead`,
then `Lock`, one `delete` for each key of the list, `Unlock`. -/
def CleanEvents (jc : JustCache α) (now : Time) : List Event :=
  if jc.cleanupStrategy = cleanupStrategyOnTheFly then
    rangeEvents jc.items
      (fun e => if now.After e.2.deadAfter then [Event.Lock, Event.write, Event.Unlock] else [])
  else if jc.cleanupStrategy = cleanupStrategyCollect then
    jc.deadEvents now ++ [Event.Lock] ++ (jc.dead now).1.map (fun _ => Event.write)
      ++ [Event.Unlock]
  else
    []

end JustCache

end jcache

/-! ## Lemmas on maps and loops -/

namespace jcache

variable {α : Type}

/-- In a list without repeated keys, erasing a key keeps exactly the pairs
with another key. -/
theorem kerase_eq_filter (a : String) :
    ∀ (l : List (Σ _ : String, item α)), l.NodupKeys →
      List.kerase a l = l.filter (fun e => decide (e.1 ≠ a))
  | [], _ => by simp
  | e :: l, nd => by
    have hcons := List.nodupKeys_cons.mp nd
    by_cases h : a = e.1
    · have hl : l.filter (fun x => decide (x.1 ≠ a)) = l := by
        apply List.filter_eq_self.mpr
        intro x hx
        have : x.1 ≠ a := by
          intro hxa
          exact hcons.1 (h ▸ hxa ▸ List.mem_keys_of_mem hx)
        simpa using this
      rw [List.kerase_cons_eq h, List.filter_cons_of_neg (by simp [h]), hl]
    · have h2 : e.1 ≠ a := fun h3 => h h3.symm
      rw [List.kerase_cons_ne h, List.filter_cons_of_pos (by simpa using h2),
        kerase_eq_filter a l hcons.2]

/-- Deleting a list of keys one after the other keeps exactly the pairs whose
key is not in the list. -/
theorem foldl_erase_entries (ks : List String) :
    ∀ (m : ItemMap α), (ks.foldl (fun m key => m.erase key) m).entries
      = m.entries.filter (fun e => decide (e.1 ∉ ks)) := by
  induction ks with
  | nil => intro m; simp
  | cons k ks ih =>
    intro m
    rw [List.foldl_cons, ih (m.erase k)]
    show List.filter _ (List.kerase k m.entries) = _
    rw [kerase_eq_filter k m.entries m.nodupKeys, List.filter_filter]
    apply List.filter_congr
    intro x _
    by_cases h1 : x.1 = k <;> simp [h1]

/-- A loop that appends `f e` for the visited `e` satisfying `p` builds the
image of the filtered list. -/
theorem foldl_append_if {β γ : Type} (p : β → Bool) (f : β → γ) (l : List β) :
    ∀ (init : List γ), l.foldl (fun acc e => if p e then acc ++ [f e] else acc) init
      = init ++ (l.filter p).map f := by
  induction l with
  | nil => intro init; simp
  | cons e l ih =>
    intro init
    rw [List.foldl_cons, ih]
    by_cases h : p e <;> simp [h]

/-- A loop that appends `f e` for every visited `e` builds the image. -/
theorem foldl_append_all {β γ : Type} (f : β → γ) (l : List β) :
    ∀ (init : List γ), l.foldl (fun acc e => acc ++ [f e]) init = init ++ l.map f := by
  induction l with
  | nil => intro init; simp
  | cons e l ih => intro init; rw [List.foldl_cons, ih]; simp

/-- Deleting while scanning is deleting the scanned dead keys in scan order. -/
theorem foldl_erase_if (p : (Σ _ : String, item α) → Bool)
    (es : List (Σ _ : String, item α)) :
    ∀ (m : ItemMap α), es.foldl (fun m e => if p e then m.erase e.1 else m) m
      = ((es.filter p).map (fun e => e.1)).foldl (fun m key => m.erase key) m := by
  induction es with
  | nil => intro m; simp
  | cons e es ih =>
    intro m
    rw [List.foldl_cons, ih]
    by_cases h : p e <;> simp [h]

namespace JustCache

/-- The scan of `dead` returns the keys of the dead pairs, in stored order. -/
theorem dead_eq (jc : JustCache α) (tick : Time) :
    (jc.dead tick).1
      = (jc.items.entries.filter (fun e => tick.After e.2.deadAfter)).map (fun e => e.1) := by
  unfold dead
  simp only
  rw [foldl_append_if (fun e : (Σ _ : String, item α) => tick.After e.2.deadAfter)
    (fun e => e.1)]
  simp

/-- Method `Keys` returns the keys in stored order. -/
theorem Keys_eq (jc : JustCache α) : jc.Keys.1 = jc.items.keys := by
  unfold Keys
  simp only
  rw [foldl_append_all (fun e : (Σ _ : String, item α) => e.1)]
  simp [AList.keys, List.keys]

/-- Method `Items` returns the key and payload of every pair in stored order. -/
theorem Items_eq (jc : JustCache α) :
    jc.Items.1 = jc.items.entries.map (fun e => (⟨e.1, e.2.value⟩ : jcache.Item α)) := by
  unfold Items
  simp only
  rw [foldl_append_all (fun e : (Σ _ : String, item α) => (⟨e.1, e.2.value⟩ : jcache.Item α))]
  simp

/-- Deleting the dead keys of a map keeps exactly its live pairs. -/
theorem erase_dead_entries (m : ItemMap α) (now : Time) :
    (((m.entries.filter (fun e => now.After e.2.deadAfter)).map (fun e => e.1)).foldl
        (fun m key => m.erase key) m).entries
      = m.entries.filter (fun e => !now.After e.2.deadAfter) := by
  rw [foldl_erase_entries]
  apply List.filter_congr
  intro x hx
  by_cases hd : now.After x.2.deadAfter = true
  · have : x.1 ∈ (m.entries.filter (fun e => now.After e.2.deadAfter)).map (fun e => e.1) :=
      List.mem_map.mpr ⟨x, List.mem_filter.mpr ⟨hx, hd⟩, rfl⟩
    simp [hd, this]
  · have : x.1 ∉ (m.entries.filter (fun e => now.After e.2.deadAfter)).map (fun e => e.1) := by
      intro hmem
      obtain ⟨y, hy, hxy⟩ := List.mem_map.mp hmem
      have hy2 := List.mem_filter.mp hy
      have := m.nodupKeys.eq_of_fst_eq hy2.1 hx hxy
      exact hd (this ▸ hy2.2)
    simp only [Bool.not_eq_true] at hd
    simp [hd, this]

/-- Under either strategy a sweep keeps exactly the live pairs, in stored order. -/
theorem Clean_entries (jc : JustCache α) (now : Time)
    (hs : jc.cleanupStrategy = cleanupStrategyOnTheFly
      ∨ jc.cleanupStrategy = cleanupStrategyCollect) :
    (jc.Clean now).items.entries
      = jc.items.entries.filter (fun e => !now.After e.2.deadAfter) := by
  unfold Clean
  by_cases h0 : jc.cleanupStrategy = cleanupStrategyOnTheFly
  · rw [if_pos h0]
    simp only
    rw [foldl_erase_if (fun e : (Σ _ : String, item α) => now.After e.2.deadAfter)]
    exact erase_dead_entries jc.items now
  · have h1 : jc.cleanupStrategy = cleanupStrategyCollect := hs.resolve_left h0
    rw [if_neg h0, if_pos h1]
    show ((jc.dead now).1.foldl (fun m key => m.erase key) (jc.dead now).2.items).entries = _
    rw [dead_eq]
    exact erase_dead_entries jc.items now

/-- A sweep changes nothing but the map. -/
theorem Clean_config (jc : JustCache α) (now : Time) :
    (jc.Clean now).cleanupStrategy = jc.cleanupStrategy
      ∧ (jc.Clean now).cleanupInterval = jc.cleanupInterval
      ∧ (jc.Clean now).capacity = jc.capacity := by
  unfold Clean
  split_ifs <;> simp [dead]

/-- Looking a key up after a sweep: the stored item when it is live. -/
theorem Clean_lookup (jc : JustCache α) (now : Time)
    (hs : jc.cleanupStrategy = cleanupStrategyOnTheFly
      ∨ jc.cleanupStrategy = cleanupStrategyCollect) (k : String) (it : item α) :
    (jc.Clean now).items.lookup k = some it
      ↔ jc.items.lookup k = some it ∧ now.After it.deadAfter = false := by
  have h1 : ∀ (m : ItemMap α), m.lookup k = some it ↔ (⟨k, it⟩ : Σ _ : String, item α) ∈ m.entries :=
    fun m => AList.mem_lookup_iff
  rw [h1, h1, Clean_entries jc now hs, List.mem_filter]
  simp

end JustCache

end jcache

/-! ## The visiting order of a map -/

namespace jcache

variable {α : Type}

/-- The delete-while-scanning loop of `Clean` leaves the same map in whatever
order the scan visits the stored pairs. -/
theorem sweep_order_irrelevant (m : ItemMap α) (now : Time)
    (order : List (Σ _ : String, item α)) (hperm : order.Perm m.entries) :
    order.foldl (fun m e => if now.After e.2.deadAfter then m.erase e.1 else m) m
      = m.entries.foldl (fun m e => if now.After e.2.deadAfter then m.erase e.1 else m) m := by
  apply AList.ext
  rw [foldl_erase_if (fun e : (Σ _ : String, item α) => now.After e.2.deadAfter),
    foldl_erase_if (fun e : (Σ _ : String, item α) => now.After e.2.deadAfter),
    foldl_erase_entries, foldl_erase_entries]
  apply List.filter_congr
  intro x _
  have hiff : x.1 ∈ (order.filter (fun e => now.After e.2.deadAfter)).map (fun e => e.1)
      ↔ x.1 ∈ (m.entries.filter (fun e => now.After e.2.deadAfter)).map (fun e => e.1) :=
    ((hperm.filter _).map _).mem_iff
  simp only [hiff]

/-- The bulk delete of `Clean` leaves the same map in whatever order the
scan of `dead` collected the dead keys. -/
theorem bulk_delete_order_irrelevant (m : ItemMap α) (ks1 ks2 : List String)
    (hperm : ks1.Perm ks2) :
    ks1.foldl (fun m key => m.erase key) m = ks2.foldl (fun m key => m.erase key) m := by
  apply AList.ext
  rw [foldl_erase_entries, foldl_erase_entries]
  apply List.filter_congr
  intro x _
  simp only [hperm.mem_iff]

end jcache

/-! ## Set, Get and Has -/

namespace jcache

open JustCache

variable {α : Type}

/-- A call of `Set` on a cache below its capacity succeeds and stores the
item under the key. -/
theorem Set_of_lt (jc : JustCache α) (clock : Time) (k : String) (v : Option α)
    (ttl : Duration) (hcap : jc.items.len < jc.capacity) :
    jc.Set clock k v ttl
      = (none, { jc with items := jc.items.insert k ⟨v, clock.Add ttl⟩ }) := by
  unfold JustCache.Set
  rw [if_neg (not_le.mpr hcap)]

/-- A call of `Set` on a cache at or above its capacity returns the error and
the cache as it was. -/
theorem Set_of_ge (jc : JustCache α) (clock : Time) (k : String) (v : Option α)
    (ttl : Duration) (hcap : jc.items.len ≥ jc.capacity) :
    jc.Set clock k v ttl = (some ErrorCacheIsFull, jc) := by
  unfold JustCache.Set
  rw [if_pos hcap]

/-- C1: round trip. For every cache holding fewer entries than its capacity,
every key, value and ttl > 0, the call of Set succeeds, and right after it Get
of the key returns the value and Has of the key returns true. -/
theorem C1_set_get_roundtrip (jc : JustCache α) (clock : Time) (k : String)
    (v : Option α) (ttl : Duration)
    (hcap : jc.items.len < jc.capacity) (_httl : 0 < ttl) :
    (jc.Set clock k v ttl).1 = none
      ∧ ((jc.Set clock k v ttl).2.Get k).1 = v
      ∧ ((jc.Set clock k v ttl).2.Has k).1 = true := by
  rw [Set_of_lt jc clock k v ttl hcap]
  refine ⟨rfl, ?_, ?_⟩
  · simp [Get, ItemMap.index, AList.lookup_insert]
  · simp [Has, AList.lookup_insert]

/-- C1 at the call of `TestSetAndGet`, on a cache of capacity 2 that already
holds another key. -/
theorem C1_set_get_roundtrip_witness :
    (((New 50 2 : JustCache Nat).Set 0 "key0" (some 3) 1000).2.items.len
        < ((New 50 2 : JustCache Nat).Set 0 "key0" (some 3) 1000).2.capacity)
      ∧ (0 : Duration) < 1000
      ∧ ((((New 50 2 : JustCache Nat).Set 0 "key0" (some 3) 1000).2.Set 7 "key1" (some 9) 1000).1
          = none
        ∧ (((((New 50 2 : JustCache Nat).Set 0 "key0" (some 3) 1000).2.Set 7 "key1"
              (some 9) 1000).2.Get "key1").1 = some 9)
        ∧ (((((New 50 2 : JustCache Nat).Set 0 "key0" (some 3) 1000).2.Set 7 "key1"
              (some 9) 1000).2.Has "key1").1 = true)) :=
  ⟨by decide, by decide,
    C1_set_get_roundtrip ((New 50 2 : JustCache Nat).Set 0 "key0" (some 3) 1000).2 7 "key1"
      (some 9) 1000 (by decide) (by decide)⟩

/-- C2: Set returns the error ErrorCacheIsFull exactly when the number of
entries is at least the capacity, and returns no error otherwise. The outcome
is the same for every key, value, ttl and clock, and the same in every cache
with that number of entries and that capacity, whatever its keys and their
expiration times are. -/
theorem C2_set_full_iff (jc : JustCache α) (clock : Time) (k : String)
    (v : Option α) (ttl : Duration) :
    ((jc.Set clock k v ttl).1 = some ErrorCacheIsFull ↔ jc.items.len ≥ jc.capacity)
      ∧ ((jc.Set clock k v ttl).1 = none ↔ jc.items.len < jc.capacity)
      ∧ (∀ (jc2 : JustCache α) (clock2 : Time) (k2 : String) (v2 : Option α)
          (ttl2 : Duration),
          jc2.items.len = jc.items.len → jc2.capacity = jc.capacity →
            (jc2.Set clock2 k2 v2 ttl2).1 = (jc.Set clock k v ttl).1) := by
  refine ⟨?_, ?_, ?_⟩
  · by_cases h : jc.items.len ≥ jc.capacity
    · simp [Set_of_ge jc clock k v ttl h, h]
    · simp [Set_of_lt jc clock k v ttl (not_le.mp h), h]
  · by_cases h : jc.items.len ≥ jc.capacity
    · simp [Set_of_ge jc clock k v ttl h, not_lt.mpr h]
    · simp [Set_of_lt jc clock k v ttl (not_le.mp h), not_le.mp h]
  · intro jc2 clock2 k2 v2 ttl2 hl hc
    unfold JustCache.Set
    rw [hl, hc]
    split_ifs <;> rfl

/-- C4: a call of Set that returns ErrorCacheIsFull leaves the cache as it
was: the same entries with the same values and expiration times, and the same
capacity, strategy and interval. -/
theorem C4_rejected_set_unchanged (jc : JustCache α) (clock : Time) (k : String)
    (v : Option α) (ttl : Duration)
    (hfull : (jc.Set clock k v ttl).1 = some ErrorCacheIsFull) :
    (jc.Set clock k v ttl).2 = jc := by
  by_cases h : jc.items.len ≥ jc.capacity
  · rw [Set_of_ge jc clock k v ttl h]
  · rw [Set_of_lt jc clock k v ttl (not_le.mp h)] at hfull
    simp at hfull

/-- C4 at the third call of `TestCapacity`. -/
theorem C4_rejected_set_unchanged_witness :
    ((setEach ((New 50 10000 : JustCache Nat).WithCapacity 2)
          [⟨0, "a", some 1, 1000⟩, ⟨1, "b", some 2, 1000⟩]).2.Set 2 "c" (some 3) 1000).1
        = some ErrorCacheIsFull
      ∧ ((setEach ((New 50 10000 : JustCache Nat).WithCapacity 2)
          [⟨0, "a", some 1, 1000⟩, ⟨1, "b", some 2, 1000⟩]).2.Set 2 "c" (some 3) 1000).2
        = (setEach ((New 50 10000 : JustCache Nat).WithCapacity 2)
          [⟨0, "a", some 1, 1000⟩, ⟨1, "b", some 2, 1000⟩]).2 :=
  ⟨by decide,
    C4_rejected_set_unchanged (setEach ((New 50 10000 : JustCache Nat).WithCapacity 2)
      [⟨0, "a", some 1, 1000⟩, ⟨1, "b", some 2, 1000⟩]).2 2 "c" (some 3) 1000 (by decide)⟩

end jcache

/-! ## Filling a cache up to its capacity -/

namespace jcache

open JustCache

variable {α : Type}

/-- The number of entries is the number of keys. -/
theorem len_eq_keys_length (m : ItemMap α) : m.len = (m.keys.length : Int) := by
  simp [ItemMap.len, AList.keys, List.keys]

/-- Calls made after other calls continue from the cache those left. -/
theorem setEach_append (xs ys : List (SetCall α)) :
    ∀ (jc : JustCache α), setEach jc (xs ++ ys)
      = ((setEach jc xs).1 ++ (setEach (setEach jc xs).2 ys).1,
          (setEach (setEach jc xs).2 ys).2) := by
  induction xs with
  | nil => intro jc; simp [setEach]
  | cons c xs ih => intro jc; simp [setEach, ih]

/-- Calls with fresh, pairwise distinct keys that fit below the capacity all
succeed; the keys are added in front of the stored ones, latest first. -/
theorem setEach_fresh (calls : List (SetCall α)) :
    ∀ (jc : JustCache α), (∀ c ∈ calls, c.key ∉ jc.items) →
      (calls.map SetCall.key).Nodup →
      jc.items.len + (calls.length : Int) ≤ jc.capacity →
      (setEach jc calls).1 = List.replicate calls.length none
        ∧ (setEach jc calls).2.items.keys = (calls.map SetCall.key).reverse ++ jc.items.keys
        ∧ (setEach jc calls).2.capacity = jc.capacity := by
  induction calls with
  | nil => intro jc _ _ _; simp [setEach]
  | cons c rest ih =>
    intro jc hfresh hnd hcap
    have hlt : jc.items.len < jc.capacity := by
      simp only [List.length_cons, Nat.cast_add, Nat.cast_one] at hcap
      omega
    have hc : c.key ∉ jc.items := hfresh c (List.mem_cons_self _ _)
    have hnd2 : c.key ∉ rest.map SetCall.key ∧ (rest.map SetCall.key).Nodup :=
      List.nodup_cons.mp hnd
    have hkeys : (jc.items.insert c.key ⟨c.value, c.clock.Add c.ttl⟩).keys
        = c.key :: jc.items.keys := by
      rw [AList.keys_insert, List.erase_of_not_mem (fun h => hc (AList.mem_keys.mpr h))]
    have hstep := ih { jc with items := jc.items.insert c.key ⟨c.value, c.clock.Add c.ttl⟩ }
      (by
        intro d hd hmem
        rcases (AList.mem_insert jc.items).mp hmem with h | h
        · exact hnd2.1 (h ▸ List.mem_map.mpr ⟨d, hd, rfl⟩)
        · exact hfresh d (List.mem_cons_of_mem _ hd) h)
      hnd2.2
      (by
        simp only [len_eq_keys_length, hkeys, List.length_cons, Nat.cast_add, Nat.cast_one]
        simp only [len_eq_keys_length, List.length_cons, Nat.cast_add, Nat.cast_one] at hcap
        omega)
    simp only [setEach, Set_of_lt jc c.clock c.key c.value c.ttl hlt]
    refine ⟨?_, ?_, ?_⟩
    · rw [hstep.1]; simp [List.replicate_succ]
    · rw [hstep.2.1, hkeys]; simp
    · rw [hstep.2.2]

/-- C3: capacity enforcement. For every capacity C >= 0 and every C+1 calls
of Set with pairwise distinct keys made on the empty cache New(interval, C),
the first C calls return no error and the last returns ErrorCacheIsFull;
afterwards the cache holds C entries and Keys lists exactly the first C keys,
each once. -/
theorem C3_capacity_enforcement (interval : Duration) (C : Int) (hC : 0 ≤ C)
    (calls : List (SetCall α)) (hlen : (calls.length : Int) = C + 1)
    (hdist : (calls.map SetCall.key).Nodup) :
    (setEach (New interval C) calls).1
        = List.replicate C.toNat none ++ [some ErrorCacheIsFull]
      ∧ (setEach (New interval C) calls).2.items.len = C
      ∧ ((setEach (New interval C) calls).2.Keys.1).Perm
          ((calls.map SetCall.key).take C.toNat) := by
  have hne : calls ≠ [] := by
    intro h
    rw [h] at hlen
    simp at hlen
    omega
  have hsplit := List.dropLast_append_getLast hne
  have hinit : calls.dropLast.length = C.toNat := by
    rw [List.length_dropLast]
    omega
  have hnd : (calls.dropLast.map SetCall.key).Nodup := by
    rw [← hsplit, List.map_append] at hdist
    exact (List.nodup_append.mp hdist).1
  have hfresh := setEach_fresh calls.dropLast (New interval C : JustCache α)
    (by intro c _; exact AList.not_mem_empty _) hnd
    (by
      show (New interval C : JustCache α).items.len + _ ≤ C
      rw [hinit]
      simp [New, ItemMap.len]
      omega)
  have hkeys : (setEach (New interval C : JustCache α) calls.dropLast).2.items.keys
      = (calls.dropLast.map SetCall.key).reverse := by
    rw [hfresh.2.1]
    simp [New]
  have hfull : (setEach (New interval C : JustCache α) calls.dropLast).2.items.len
      ≥ (setEach (New interval C : JustCache α) calls.dropLast).2.capacity := by
    rw [hfresh.2.2, len_eq_keys_length, hkeys]
    simp only [List.length_reverse, List.length_map, hinit]
    show C ≤ _
    omega
  have htake : (calls.map SetCall.key).take C.toNat = calls.dropLast.map SetCall.key := by
    conv_lhs => rw [← hsplit, List.map_append]
    rw [List.take_append_of_le_length (by rw [List.length_map, hinit]),
      List.take_of_length_le (by rw [List.length_map, hinit])]
  have hrun : setEach (New interval C : JustCache α) calls
      = ((setEach (New interval C : JustCache α) calls.dropLast).1 ++ [some ErrorCacheIsFull],
          (setEach (New interval C : JustCache α) calls.dropLast).2) := by
    conv_lhs => rw [← hsplit, setEach_append]
    simp [setEach, Set_of_ge _ _ _ _ _ hfull]
  rw [hrun, htake]
  refine ⟨?_, ?_, ?_⟩
  · simp only
    rw [hfresh.1, hinit]
  · simp only
    rw [len_eq_keys_length, hkeys]
    simp only [List.length_reverse, List.length_map, hinit]
    omega
  · simp only
    rw [Keys_eq, hkeys]
    exact List.reverse_perm _

/-- C3 at the calls of `TestCapacity`. -/
theorem C3_capacity_enforcement_witness :
    (0 : Int) ≤ 2
      ∧ (([⟨0, "a", some 1, 1000⟩, ⟨1, "b", some 2, 1000⟩, ⟨2, "c", some 3, 1000⟩] :
            List (SetCall Nat)).length : Int) = 2 + 1
      ∧ (([⟨0, "a", some 1, 1000⟩, ⟨1, "b", some 2, 1000⟩, ⟨2, "c", some 3, 1000⟩] :
            List (SetCall Nat)).map SetCall.key).Nodup
      ∧ ((setEach (New 50 2 : JustCache Nat)
            [⟨0, "a", some 1, 1000⟩, ⟨1, "b", some 2, 1000⟩, ⟨2, "c", some 3, 1000⟩]).1
          = List.replicate (2 : Int).toNat none ++ [some ErrorCacheIsFull]
        ∧ (setEach (New 50 2 : JustCache Nat)
            [⟨0, "a", some 1, 1000⟩, ⟨1, "b", some 2, 1000⟩, ⟨2, "c", some 3, 1000⟩]).2.items.len
          = 2
        ∧ ((setEach (New 50 2 : JustCache Nat)
            [⟨0, "a", some 1, 1000⟩, ⟨1, "b", some 2, 1000⟩, ⟨2, "c", some 3, 1000⟩]).2.Keys.1).Perm
          ((([⟨0, "a", some 1, 1000⟩, ⟨1, "b", some 2, 1000⟩, ⟨2, "c", some 3, 1000⟩] :
            List (SetCall Nat)).map SetCall.key).take (2 : Int).toNat)) :=
  ⟨by decide, by decide, by decide,
    C3_capacity_enforcement 50 2 (by decide)
      [⟨0, "a", some 1, 1000⟩, ⟨1, "b", some 2, 1000⟩, ⟨2, "c", some 3, 1000⟩]
      (by decide) (by decide)⟩

end jcache

/-! ## Sweeps -/

namespace jcache

open JustCache

variable {α : Type}

/-- C5: sweep postcondition. For every cache with one of the two strategies
and every reference time now, after Clean(now) a key is present exactly when
it was present before with an expiration time not earlier than now (an entry
expiring exactly at now survives), and every entry found after the sweep is
the entry stored before it, with the same value and expiration time. -/
theorem C5_clean_postcondition (jc : JustCache α) (now : Time) (k : String)
    (hs : jc.cleanupStrategy = cleanupStrategyOnTheFly
      ∨ jc.cleanupStrategy = cleanupStrategyCollect) :
    (((jc.Clean now).Has k).1 = true
        ↔ ∃ it, jc.items.lookup k = some it ∧ now ≤ it.deadAfter)
      ∧ (∀ it, (jc.Clean now).items.lookup k = some it → jc.items.lookup k = some it)
      ∧ (∀ it, jc.items.lookup k = some it → it.deadAfter = now →
          (jc.Clean now).items.lookup k = some it) := by
  have hl := Clean_lookup jc now hs k
  refine ⟨?_, ?_, ?_⟩
  · unfold Has
    simp only [Option.isSome_iff_exists]
    constructor
    · rintro ⟨it, hit⟩
      have h := (hl it).mp hit
      refine ⟨it, h.1, ?_⟩
      have h2 := h.2
      simp only [Time.After, decide_eq_false_iff_not, not_lt] at h2
      exact h2
    · rintro ⟨it, hit, hle⟩
      exact ⟨it, (hl it).mpr ⟨hit, by simp [Time.After, hle]⟩⟩
  · intro it hit
    exact ((hl it).mp hit).1
  · intro it hit heq
    exact (hl it).mpr ⟨hit, by simp [Time.After, heq]⟩

/-- C5 on a cache using the Collect strategy with one entry expiring at 10
and one at 30, swept at 10 and looked up at the first key. -/
theorem C5_clean_postcondition_witness :
    ((setEach ((New 50 5 : JustCache Nat).WithStrategy cleanupStrategyCollect)
          [⟨0, "a", some 1, 10⟩, ⟨0, "b", some 2, 30⟩]).2.cleanupStrategy
          = cleanupStrategyOnTheFly
        ∨ (setEach ((New 50 5 : JustCache Nat).WithStrategy cleanupStrategyCollect)
          [⟨0, "a", some 1, 10⟩, ⟨0, "b", some 2, 30⟩]).2.cleanupStrategy
          = cleanupStrategyCollect)
      ∧ ((setEach ((New 50 5 : JustCache Nat).WithStrategy cleanupStrategyCollect)
          [⟨0, "a", some 1, 10⟩, ⟨0, "b", some 2, 30⟩]).2.Clean 10).Keys.1 = ["b", "a"]
      ∧ ((setEach ((New 50 5 : JustCache Nat).WithStrategy cleanupStrategyCollect)
          [⟨0, "a", some 1, 10⟩, ⟨0, "b", some 2, 30⟩]).2.Clean 11).Keys.1 = ["b"]
      ∧ ((∀ it, ((setEach ((New 50 5 : JustCache Nat).WithStrategy cleanupStrategyCollect)
            [⟨0, "a", some 1, 10⟩, ⟨0, "b", some 2, 30⟩]).2.Clean 10).items.lookup "a" = some it →
          (setEach ((New 50 5 : JustCache Nat).WithStrategy cleanupStrategyCollect)
            [⟨0, "a", some 1, 10⟩, ⟨0, "b", some 2, 30⟩]).2.items.lookup "a" = some it)) :=
  ⟨by decide, by decide, by decide,
    (C5_clean_postcondition (setEach ((New 50 5 : JustCache Nat).WithStrategy cleanupStrategyCollect)
      [⟨0, "a", some 1, 10⟩, ⟨0, "b", some 2, 30⟩]).2 10 "a" (by decide)).2.1⟩

/-- C6: expiration. For every key, value and ttl and either strategy, after
a successful Set at time t and a sweep Clean(now) with now after the deadline
t + ttl, Has of the key returns false. -/
theorem C6_expired_after_clean (jc : JustCache α) (t : Time) (k : String)
    (v : Option α) (ttl : Duration) (now : Time)
    (hs : jc.cleanupStrategy = cleanupStrategyOnTheFly
      ∨ jc.cleanupStrategy = cleanupStrategyCollect)
    (hok : (jc.Set t k v ttl).1 = none)
    (hnow : now.After (t.Add ttl) = true) :
    (((jc.Set t k v ttl).2.Clean now).Has k).1 = false := by
  have hlt : jc.items.len < jc.capacity := by
    by_contra h
    rw [Set_of_ge jc t k v ttl (not_lt.mp h)] at hok
    simp at hok
  have hjc := Set_of_lt jc t k v ttl hlt
  have hs1 : (jc.Set t k v ttl).2.cleanupStrategy = cleanupStrategyOnTheFly
      ∨ (jc.Set t k v ttl).2.cleanupStrategy = cleanupStrategyCollect := by
    rw [hjc]; exact hs
  have hk : (jc.Set t k v ttl).2.items.lookup k = some ⟨v, t.Add ttl⟩ := by
    rw [hjc]; simp
  unfold Has
  simp only
  cases hlook : ((jc.Set t k v ttl).2.Clean now).items.lookup k with
  | none => rfl
  | some it =>
    have h := (Clean_lookup _ now hs1 k it).mp hlook
    rw [hk] at h
    obtain ⟨h1, h2⟩ := h
    cases h1
    simp [hnow] at h2

/-- C6 at the calls of `TestExpirationCleanup_Collect`, in milliseconds. -/
theorem C6_expired_after_clean_witness :
    (((New 20 10000 : JustCache Nat).WithStrategy cleanupStrategyCollect).cleanupStrategy
          = cleanupStrategyOnTheFly
        ∨ ((New 20 10000 : JustCache Nat).WithStrategy cleanupStrategyCollect).cleanupStrategy
          = cleanupStrategyCollect)
      ∧ (((New 20 10000 : JustCache Nat).WithStrategy cleanupStrategyCollect).Set 0 "temp"
          (some 4) 30).1 = none
      ∧ Time.After 100 (Time.Add 0 30) = true
      ∧ (((((New 20 10000 : JustCache Nat).WithStrategy cleanupStrategyCollect).Set 0 "temp"
          (some 4) 30).2.Clean 100).Has "temp").1 = false :=
  ⟨by decide, by decide, by decide,
    C6_expired_after_clean
      ((New 20 10000 : JustCache Nat).WithStrategy cleanupStrategyCollect) 0 "temp" (some 4) 30 100
      (by decide) (by decide) (by decide)⟩

/-- C7: strategy equivalence. For every cache contents and every reference
time, the sweep under OnTheFly and the sweep under Collect leave the same map:
the same keys with the same values and expiration times. -/
theorem C7_strategy_equivalence (jc : JustCache α) (now : Time) :
    ((jc.WithStrategy cleanupStrategyOnTheFly).Clean now).items
      = ((jc.WithStrategy cleanupStrategyCollect).Clean now).items := by
  apply AList.ext
  rw [Clean_entries _ now (Or.inl rfl), Clean_entries _ now (Or.inr rfl)]
  rfl

end jcache

/-! ## Del, Clear and reads of a missing key -/

namespace jcache

open JustCache

variable {α : Type}

/-- C8: delete. For every cache and key k, after Del(k) Has(k) is false and
every other key keeps its entry (value and expiration time); capacity, strategy
and interval are unchanged; Del is a total function with no error result; when
k is absent Del(k) returns the cache as it was, and Del(k) twice is Del(k)
once. -/
theorem C8_del (jc : JustCache α) (k : String) :
    ((jc.Del k).Has k).1 = false
      ∧ (∀ k2, k2 ≠ k → (jc.Del k).items.lookup k2 = jc.items.lookup k2)
      ∧ ((jc.Del k).capacity = jc.capacity
          ∧ (jc.Del k).cleanupStrategy = jc.cleanupStrategy
          ∧ (jc.Del k).cleanupInterval = jc.cleanupInterval)
      ∧ ((jc.Has k).1 = false → jc.Del k = jc)
      ∧ (jc.Del k).Del k = jc.Del k := by
  have habs : ∀ (c : JustCache α), c.items.lookup k = none → c.Del k = c := by
    intro c hc
    have hmem : k ∉ c.items.entries.keys := AList.lookup_eq_none.mp hc
    have : c.items.erase k = c.items := AList.ext (List.kerase_of_not_mem_keys hmem)
    unfold Del
    rw [this]
  refine ⟨?_, ?_, ⟨rfl, rfl, rfl⟩, ?_, ?_⟩
  · simp [Has, Del, AList.lookup_erase]
  · intro k2 hk2
    exact AList.lookup_erase_ne hk2
  · intro h
    apply habs
    simpa [Has] using h
  · apply habs
    simp [Del, AList.lookup_erase]

/-- C9: Clear empties fully. For every cache, after Clear the calls Keys and
Items return the empty sequence and Has is false for every key, while capacity,
strategy and interval are unchanged. -/
theorem C9_clear (jc : JustCache α) :
    jc.Clear.Keys.1 = []
      ∧ jc.Clear.Items.1 = []
      ∧ (∀ k, (jc.Clear.Has k).1 = false)
      ∧ jc.Clear.capacity = jc.capacity
      ∧ jc.Clear.cleanupStrategy = jc.cleanupStrategy
      ∧ jc.Clear.cleanupInterval = jc.cleanupInterval := by
  refine ⟨rfl, rfl, ?_, rfl, rfl, rfl⟩
  intro k
  simp [Has, Clear, AList.lookup_empty]

/-- C10: reads of a missing key. For every cache and every key that is not
present, Get returns nil, Has returns false and Item returns the key with a nil
value; each of the three is a total function with no error result and returns
the cache as it was. -/
theorem C10_read_missing (jc : JustCache α) (k : String) (habsent : k ∉ jc.items) :
    (jc.Get k).1 = none
      ∧ (jc.Has k).1 = false
      ∧ (jc.Item k).1 = ⟨k, none⟩
      ∧ (jc.Get k).2 = jc ∧ (jc.Has k).2 = jc ∧ (jc.Item k).2 = jc := by
  have hl : jc.items.lookup k = none := AList.lookup_eq_none.mpr habsent
  refine ⟨?_, ?_, ?_, rfl, rfl, rfl⟩
  · simp [Get, ItemMap.index, hl, zeroItem]
  · simp [Has, hl]
  · simp [JustCache.Item, Get, ItemMap.index, hl, zeroItem]

/-- C10 on a cache that holds the key "a" and is read at the key "b". -/
theorem C10_read_missing_witness :
    "b" ∉ ((New 50 5 : JustCache Nat).Set 0 "a" (some 1) 10).2.items
      ∧ ((((New 50 5 : JustCache Nat).Set 0 "a" (some 1) 10).2.Get "b").1 = none
        ∧ (((New 50 5 : JustCache Nat).Set 0 "a" (some 1) 10).2.Has "b").1 = false
        ∧ (((New 50 5 : JustCache Nat).Set 0 "a" (some 1) 10).2.Item "b").1 = ⟨"b", none⟩
        ∧ (((New 50 5 : JustCache Nat).Set 0 "a" (some 1) 10).2.Get "b").2
            = ((New 50 5 : JustCache Nat).Set 0 "a" (some 1) 10).2
        ∧ (((New 50 5 : JustCache Nat).Set 0 "a" (some 1) 10).2.Has "b").2
            = ((New 50 5 : JustCache Nat).Set 0 "a" (some 1) 10).2
        ∧ (((New 50 5 : JustCache Nat).Set 0 "a" (some 1) 10).2.Item "b").2
            = ((New 50 5 : JustCache Nat).Set 0 "a" (some 1) 10).2) :=
  ⟨by decide,
    C10_read_missing ((New 50 5 : JustCache Nat).Set 0 "a" (some 1) 10).2 "b" (by decide)⟩

end jcache

/-! ## Reads of stored entries and enumeration -/

namespace jcache

open JustCache

variable {α : Type}

/-- C11 as stated fails: a cache with the cleanup interval 1000 holds the key
"a" with the value 1, set at time 0 with ttl 10. At time 20 the entry is
expired, no tick of the sweeper has come yet, and Get returns the stored value
1, not nil. -/
theorem C11_expired_read_counterexample :
    ((New 1000 5 : JustCache Nat).Set 0 "a" (some 1) 10).2.items.lookup "a" = some ⟨some 1, 10⟩
      ∧ Time.After 20 10 = true
      ∧ (((New 1000 5 : JustCache Nat).Set 0 "a" (some 1) 10).2.Get "a").1 = some 1
      ∧ (((New 1000 5 : JustCache Nat).Set 0 "a" (some 1) 10).2.Get "a").1 ≠ none := by
  decide

/-- C11 amended: for every cache and every key whose entry is present but
expired at the time of the read and not yet swept, Get does not fail and does
not look at the expiration time: it returns the stored value of the entry and
the cache as it was. -/
theorem C11_expired_read_returns_stored (jc : JustCache α) (k : String) (it : item α)
    (now : Time) (hpresent : jc.items.lookup k = some it)
    (_hexpired : now.After it.deadAfter = true) :
    (jc.Get k).1 = it.value ∧ (jc.Get k).2 = jc := by
  simp [Get, ItemMap.index, hpresent]

/-- C11 amended, at the cache of the counterexample read at time 20. -/
theorem C11_expired_read_returns_stored_witness :
    ((New 1000 5 : JustCache Nat).Set 0 "a" (some 1) 10).2.items.lookup "a" = some ⟨some 1, 10⟩
      ∧ Time.After 20 (10 : Time) = true
      ∧ ((((New 1000 5 : JustCache Nat).Set 0 "a" (some 1) 10).2.Get "a").1 = some 1
        ∧ (((New 1000 5 : JustCache Nat).Set 0 "a" (some 1) 10).2.Get "a").2
            = ((New 1000 5 : JustCache Nat).Set 0 "a" (some 1) 10).2) :=
  ⟨by decide, by decide,
    C11_expired_read_returns_stored ((New 1000 5 : JustCache Nat).Set 0 "a" (some 1) 10).2 "a"
      ⟨some 1, 10⟩ 20 (by decide) (by decide)⟩

/-- C12: enumeration. For every cache, Keys lists each present key once and
nothing else, and Items lists for each present key one pair of the key and its
stored value and nothing else. Presence is all that counts, so entries that are
expired and not swept are listed. Both have as many elements as the map has
entries, and both return the cache as it was. -/
theorem C12_enumeration (jc : JustCache α) :
    (jc.Keys.1.Nodup ∧ (∀ k, k ∈ jc.Keys.1 ↔ (jc.Has k).1 = true)
        ∧ (jc.Keys.1.length : Int) = jc.items.len ∧ jc.Keys.2 = jc)
      ∧ ((jc.Items.1.map Item.Key).Nodup
        ∧ (∀ k v, (⟨k, v⟩ : jcache.Item α) ∈ jc.Items.1
            ↔ ∃ it, jc.items.lookup k = some it ∧ it.value = v)
        ∧ (jc.Items.1.length : Int) = jc.items.len ∧ jc.Items.2 = jc)
      ∧ (∀ (k : String) (it : item α) (now : Time),
          jc.items.lookup k = some it → now.After it.deadAfter = true →
          k ∈ jc.Keys.1 ∧ (⟨k, it.value⟩ : jcache.Item α) ∈ jc.Items.1) := by
  have hkeys : jc.Items.1.map Item.Key = jc.items.keys := by
    rw [Items_eq, List.map_map]
    rfl
  refine ⟨⟨?_, ?_, ?_, rfl⟩, ⟨?_, ?_, ?_, rfl⟩, ?_⟩
  · rw [Keys_eq]; exact jc.items.keys_nodup
  · intro k
    rw [Keys_eq]
    unfold Has
    simp only
    rw [AList.lookup_isSome, AList.mem_keys]
  · rw [Keys_eq, len_eq_keys_length]
  · rw [hkeys]; exact jc.items.keys_nodup
  · intro k v
    rw [Items_eq, List.mem_map]
    constructor
    · rintro ⟨e, he, heq⟩
      obtain ⟨ek, eit⟩ := e
      simp only [Item.mk.injEq] at heq
      obtain ⟨h1, h2⟩ := heq
      subst h1
      exact ⟨eit, AList.mem_lookup_iff.mpr he, h2⟩
    · rintro ⟨it, hit, hv⟩
      exact ⟨⟨k, it⟩, AList.mem_lookup_iff.mp hit, by simp [hv]⟩
  · rw [Items_eq, List.length_map]
    rfl
  · intro k it now hit _
    constructor
    · rw [Keys_eq]
      exact AList.mem_keys.mp (AList.lookup_isSome.mp (by simp [hit]))
    · rw [Items_eq, List.mem_map]
      exact ⟨⟨k, it⟩, AList.mem_lookup_iff.mp hit, rfl⟩

end jcache

/-! ## Expiration times, builders and the capacity bound -/

namespace jcache

open JustCache

variable {α : Type}

/-- C13: non-positive TTL. A successful Set(k, v, ttl) at time t stores the
expiration time t + ttl under k, and when ttl <= 0 every sweep Clean(now)
with now later than t removes k, under either strategy. -/
theorem C13_nonpositive_ttl (jc : JustCache α) (t : Time) (k : String)
    (v : Option α) (ttl : Duration)
    (hs : jc.cleanupStrategy = cleanupStrategyOnTheFly
      ∨ jc.cleanupStrategy = cleanupStrategyCollect)
    (hok : (jc.Set t k v ttl).1 = none) :
    (jc.Set t k v ttl).2.items.lookup k = some ⟨v, t + ttl⟩
      ∧ (∀ now, ttl ≤ 0 → t < now → (((jc.Set t k v ttl).2.Clean now).Has k).1 = false) := by
  have hlt : jc.items.len < jc.capacity := by
    by_contra h
    rw [Set_of_ge jc t k v ttl (not_lt.mp h)] at hok
    simp at hok
  have hjc := Set_of_lt jc t k v ttl hlt
  have hs1 : (jc.Set t k v ttl).2.cleanupStrategy = cleanupStrategyOnTheFly
      ∨ (jc.Set t k v ttl).2.cleanupStrategy = cleanupStrategyCollect := by
    rw [hjc]; exact hs
  have hk : (jc.Set t k v ttl).2.items.lookup k = some ⟨v, t + ttl⟩ := by
    rw [hjc]; simp [Time.Add]
  refine ⟨hk, ?_⟩
  intro now httl hnow
  unfold Has
  simp only
  cases hlook : ((jc.Set t k v ttl).2.Clean now).items.lookup k with
  | none => rfl
  | some it =>
    have h := (Clean_lookup _ now hs1 k it).mp hlook
    rw [hk] at h
    obtain ⟨h1, h2⟩ := h
    cases h1
    exfalso
    simp only [Time.After, decide_eq_false_iff_not, not_lt] at h2
    have h3 : t + ttl ≤ t := by simpa using add_le_add_left httl t
    exact lt_irrefl t (lt_of_lt_of_le hnow (le_trans h2 h3))

/-- C13 with ttl = 0 and with ttl = -5 at time 7, swept at time 8 under the
Collect strategy. -/
theorem C13_nonpositive_ttl_witness :
    (((New 50 5 : JustCache Nat).WithStrategy cleanupStrategyCollect).cleanupStrategy
          = cleanupStrategyOnTheFly
        ∨ ((New 50 5 : JustCache Nat).WithStrategy cleanupStrategyCollect).cleanupStrategy
          = cleanupStrategyCollect)
      ∧ (((New 50 5 : JustCache Nat).WithStrategy cleanupStrategyCollect).Set 7 "z"
          (some 1) (-5)).1 = none
      ∧ (((New 50 5 : JustCache Nat).WithStrategy cleanupStrategyCollect).Set 7 "z"
          (some 1) (-5)).2.items.lookup "z" = some ⟨some 1, 2⟩
      ∧ (((((New 50 5 : JustCache Nat).WithStrategy cleanupStrategyCollect).Set 7 "z"
          (some 1) (-5)).2.Clean 8).Has "z").1 = false
      ∧ (((((New 50 5 : JustCache Nat).WithStrategy cleanupStrategyCollect).Set 7 "z"
          (some 1) 0).2.Clean 8).Has "z").1 = false :=
  ⟨by decide, by decide,
    (C13_nonpositive_ttl ((New 50 5 : JustCache Nat).WithStrategy cleanupStrategyCollect) 7 "z"
      (some 1) (-5) (by decide) (by decide)).1,
    (C13_nonpositive_ttl ((New 50 5 : JustCache Nat).WithStrategy cleanupStrategyCollect) 7 "z"
      (some 1) (-5) (by decide) (by decide)).2 8 (by decide) (by decide),
    (C13_nonpositive_ttl ((New 50 5 : JustCache Nat).WithStrategy cleanupStrategyCollect) 7 "z"
      (some 1) 0 (by decide) (by decide)).2 8 (by decide) (by decide)⟩

/-- C14: builder setters. For every cache and every argument, negative and
zero included, WithStrategy, WithCleanupInterval and WithCapacity each return
the cache with their own configuration field set to the argument and with the
other two configuration fields and the map of entries as they were; a capacity
below the number of entries evicts nothing. -/
theorem C14_builders (jc : JustCache α) (strategy : CleanupStrategy)
    (interval : Duration) (capacity : Int) :
    ((jc.WithStrategy strategy).cleanupStrategy = strategy
        ∧ (jc.WithStrategy strategy).cleanupInterval = jc.cleanupInterval
        ∧ (jc.WithStrategy strategy).capacity = jc.capacity
        ∧ (jc.WithStrategy strategy).items = jc.items)
      ∧ ((jc.WithCleanupInterval interval).cleanupInterval = interval
        ∧ (jc.WithCleanupInterval interval).cleanupStrategy = jc.cleanupStrategy
        ∧ (jc.WithCleanupInterval interval).capacity = jc.capacity
        ∧ (jc.WithCleanupInterval interval).items = jc.items)
      ∧ ((jc.WithCapacity capacity).capacity = capacity
        ∧ (jc.WithCapacity capacity).cleanupStrategy = jc.cleanupStrategy
        ∧ (jc.WithCapacity capacity).cleanupInterval = jc.cleanupInterval
        ∧ (jc.WithCapacity capacity).items = jc.items
        ∧ (jc.WithCapacity capacity).Keys.1 = jc.Keys.1) :=
  ⟨⟨rfl, rfl, rfl, rfl⟩, ⟨rfl, rfl, rfl, rfl⟩, ⟨rfl, rfl, rfl, rfl, rfl⟩⟩

/-- Inserting under a key adds at most one entry. -/
theorem len_insert_le (m : ItemMap α) (k : String) (it : item α) :
    ItemMap.len (m.insert k it) ≤ m.len + 1 := by
  simp only [len_eq_keys_length, AList.keys_insert, List.length_cons, Nat.cast_add,
    Nat.cast_one]
  have := List.length_erase_le k m.keys
  omega

/-- Deleting a key adds no entry. -/
theorem len_erase_le (m : ItemMap α) (k : String) : ItemMap.len (m.erase k) ≤ m.len := by
  simp only [len_eq_keys_length, AList.keys_erase]
  have := List.length_erase_le k m.keys
  omega

/-- A sweep adds no entry, whatever the strategy field holds. -/
theorem len_Clean_le (jc : JustCache α) (now : Time) :
    (jc.Clean now).items.len ≤ jc.items.len := by
  by_cases h0 : jc.cleanupStrategy = cleanupStrategyOnTheFly
  · simp only [ItemMap.len, Clean_entries jc now (Or.inl h0)]
    exact_mod_cast List.length_filter_le _ _
  · by_cases h1 : jc.cleanupStrategy = cleanupStrategyCollect
    · simp only [ItemMap.len, Clean_entries jc now (Or.inr h1)]
      exact_mod_cast List.length_filter_le _ _
    · unfold Clean
      rw [if_neg h0, if_neg h1]

/-- One call of Set, Del, Clear or Clean keeps the capacity field and keeps the
number of entries within it. -/
theorem step_keeps_bound (jc : JustCache α) (op : Op α)
    (h : jc.items.len ≤ jc.capacity) :
    (step jc op).capacity = jc.capacity ∧ (step jc op).items.len ≤ jc.capacity := by
  cases op with
  | set clock key value ttl =>
    by_cases hc : jc.items.len ≥ jc.capacity
    · have e : step jc (Op.set clock key value ttl) = jc := by
        simp [step, Set_of_ge jc clock key value ttl hc]
      rw [e]
      exact ⟨rfl, h⟩
    · have e : step jc (Op.set clock key value ttl)
          = { jc with items := jc.items.insert key ⟨value, clock.Add ttl⟩ } := by
        simp [step, Set_of_lt jc clock key value ttl (not_le.mp hc)]
      rw [e]
      refine ⟨rfl, ?_⟩
      have := len_insert_le jc.items key ⟨value, clock.Add ttl⟩
      show ItemMap.len (jc.items.insert key ⟨value, clock.Add ttl⟩) ≤ _
      omega
  | del key =>
    refine ⟨rfl, ?_⟩
    have := len_erase_le jc.items key
    show ItemMap.len (jc.items.erase key) ≤ _
    omega
  | clear =>
    refine ⟨rfl, ?_⟩
    have h0 : (0 : Int) ≤ jc.items.len := by simp [ItemMap.len]
    show (∅ : ItemMap α).len ≤ _
    simp only [ItemMap.len, AList.empty_entries, List.length_nil, Nat.cast_zero]
    omega
  | clean now =>
    refine ⟨(Clean_config jc now).2.2, ?_⟩
    have := len_Clean_le jc now
    show (jc.Clean now).items.len ≤ _
    omega

/-- A sequence of calls keeps the capacity field and keeps the number of
entries within it. -/
theorem run_keeps_bound (ops : List (Op α)) :
    ∀ (jc : JustCache α), jc.items.len ≤ jc.capacity →
      (run jc ops).capacity = jc.capacity ∧ (run jc ops).items.len ≤ jc.capacity := by
  induction ops with
  | nil => intro jc h; exact ⟨rfl, h⟩
  | cons op ops ih =>
    intro jc h
    have hstep := step_keeps_bound jc op h
    have hrest := ih (step jc op) (by rw [hstep.1]; exact hstep.2)
    simp only [run, List.foldl_cons] at hrest ⊢
    rw [hstep.1] at hrest
    exact hrest

/-- C15: capacity invariant. If the number of entries is at most the
capacity, then after any one of Set, Del, Clear and Clean the capacity is the
same and the number of entries is still at most it, and so after any sequence
of them; hence every cache reached from New(interval, C) with C >= 0 by these
calls holds at most C entries. -/
theorem C15_capacity_invariant (jc : JustCache α) (h : jc.items.len ≤ jc.capacity) :
    (∀ op, (step jc op).capacity = jc.capacity ∧ (step jc op).items.len ≤ jc.capacity)
      ∧ (∀ ops, (run jc ops).capacity = jc.capacity ∧ (run jc ops).items.len ≤ jc.capacity)
      ∧ (∀ (interval : Duration) (C : Int) (ops : List (Op α)), 0 ≤ C →
          (run (New interval C) ops).items.len ≤ C) := by
  refine ⟨fun op => step_keeps_bound jc op h, fun ops => run_keeps_bound ops jc h, ?_⟩
  intro interval C ops hC
  exact (run_keeps_bound ops (New interval C)
    (by simpa [New, ItemMap.len] using hC)).2

/-- C15 on a cache of capacity 1 that holds one entry, with a rejected Set,
a sweep, an accepted Set and a Del. -/
theorem C15_capacity_invariant_witness :
    ((New 50 1 : JustCache Nat).Set 0 "a" (some 1) 10).2.items.len
        ≤ ((New 50 1 : JustCache Nat).Set 0 "a" (some 1) 10).2.capacity
      ∧ (run ((New 50 1 : JustCache Nat).Set 0 "a" (some 1) 10).2
          [Op.set 1 "b" (some 2) 10, Op.clean 20, Op.set 21 "c" (some 3) 10]).Keys.1 = ["c"]
      ∧ (run ((New 50 1 : JustCache Nat).Set 0 "a" (some 1) 10).2
          [Op.set 1 "b" (some 2) 10, Op.clean 20, Op.set 21 "c" (some 3) 10,
            Op.del "a"]).items.len ≤ 1 :=
  ⟨by decide, by decide,
    ((C15_capacity_invariant ((New 50 1 : JustCache Nat).Set 0 "a" (some 1) 10).2
      (by decide)).2.1
        [Op.set 1 "b" (some 2) 10, Op.clean 20, Op.set 21 "c" (some 3) 10, Op.del "a"]).2⟩

end jcache

/-! ## The frame of Set and the composition of sweeps -/

namespace jcache

open JustCache

variable {α : Type}

/-- C16: frame of a successful Set. Whenever Set(k, v, ttl) succeeds, every
key other than k keeps its presence, value and expiration time, the capacity,
strategy and interval are unchanged, k holds the new value and expiration
time, and the number of entries grows by exactly one when k was absent and is
unchanged when k was present. -/
theorem C16_set_frame (jc : JustCache α) (clock : Time) (k : String) (v : Option α)
    (ttl : Duration) (hok : (jc.Set clock k v ttl).1 = none) :
    (∀ k2, k2 ≠ k → (jc.Set clock k v ttl).2.items.lookup k2 = jc.items.lookup k2)
      ∧ ((jc.Set clock k v ttl).2.capacity = jc.capacity
        ∧ (jc.Set clock k v ttl).2.cleanupStrategy = jc.cleanupStrategy
        ∧ (jc.Set clock k v ttl).2.cleanupInterval = jc.cleanupInterval)
      ∧ (jc.Set clock k v ttl).2.items.lookup k = some ⟨v, clock.Add ttl⟩
      ∧ ((jc.Has k).1 = false → (jc.Set clock k v ttl).2.items.len = jc.items.len + 1)
      ∧ ((jc.Has k).1 = true → (jc.Set clock k v ttl).2.items.len = jc.items.len) := by
  have hlt : jc.items.len < jc.capacity := by
    by_contra h
    rw [Set_of_ge jc clock k v ttl (not_lt.mp h)] at hok
    simp at hok
  rw [Set_of_lt jc clock k v ttl hlt]
  have hlen : ItemMap.len (jc.items.insert k ⟨v, clock.Add ttl⟩)
      = ((jc.items.keys.erase k).length : Int) + 1 := by
    simp [len_eq_keys_length, AList.keys_insert]
  refine ⟨?_, ⟨rfl, rfl, rfl⟩, ?_, ?_, ?_⟩
  · intro k2 hk2
    exact AList.lookup_insert_ne hk2
  · exact AList.lookup_insert jc.items
  · intro habs
    have hmem : k ∉ jc.items.keys := by
      intro hk
      have : (jc.items.lookup k).isSome = true := AList.lookup_isSome.mpr (AList.mem_keys.mpr hk)
      simp [Has, this] at habs
    show ItemMap.len (jc.items.insert k ⟨v, clock.Add ttl⟩) = _
    rw [hlen, List.erase_of_not_mem hmem, len_eq_keys_length]
  · intro hpres
    have hmem : k ∈ jc.items.keys :=
      AList.mem_keys.mp (AList.lookup_isSome.mp (by simpa [Has] using hpres))
    have hpos : 0 < jc.items.keys.length := List.length_pos_of_mem hmem
    show ItemMap.len (jc.items.insert k ⟨v, clock.Add ttl⟩) = _
    rw [hlen, List.length_erase_of_mem hmem, len_eq_keys_length]
    omega

/-- C16 on a cache that holds "a" and "b": Set overwrites "a". -/
theorem C16_set_frame_witness :
    ((setEach (New 50 5 : JustCache Nat) [⟨0, "a", some 1, 10⟩, ⟨0, "b", some 2, 20⟩]).2.Set
          3 "a" (some 7) 100).1 = none
      ∧ ((setEach (New 50 5 : JustCache Nat) [⟨0, "a", some 1, 10⟩, ⟨0, "b", some 2, 20⟩]).2.Has
          "a").1 = true
      ∧ ((setEach (New 50 5 : JustCache Nat) [⟨0, "a", some 1, 10⟩, ⟨0, "b", some 2, 20⟩]).2.Set
          3 "a" (some 7) 100).2.items.len = 2
      ∧ ((setEach (New 50 5 : JustCache Nat) [⟨0, "a", some 1, 10⟩, ⟨0, "b", some 2, 20⟩]).2.Set
          3 "a" (some 7) 100).2.items.lookup "a" = some ⟨some 7, 103⟩ :=
  ⟨by decide, by decide,
    (C16_set_frame
      (setEach (New 50 5 : JustCache Nat) [⟨0, "a", some 1, 10⟩, ⟨0, "b", some 2, 20⟩]).2
      3 "a" (some 7) 100 (by decide)).2.2.2.2 (by decide),
    (C16_set_frame
      (setEach (New 50 5 : JustCache Nat) [⟨0, "a", some 1, 10⟩, ⟨0, "b", some 2, 20⟩]).2
      3 "a" (some 7) 100 (by decide)).2.2.1⟩

/-- Two caches with the same fields are the same cache. -/
theorem JustCache.ext_fields (a b : JustCache α)
    (h1 : a.cleanupStrategy = b.cleanupStrategy) (h2 : a.cleanupInterval = b.cleanupInterval)
    (h3 : a.items = b.items) (h4 : a.capacity = b.capacity) : a = b := by
  cases a; cases b
  simp only at h1 h2 h3 h4
  subst h1 h2 h3 h4
  rfl

/-- C17: sweeps compose. For every cache with one of the two strategies and
reference times t1 <= t2, Clean(t1) followed by Clean(t2) gives the same cache
as Clean(t2) alone; Clean(now) twice is Clean(now) once; and every entry found
after a sweep is an entry stored before it, under the same key with the same
value and expiration time. -/
theorem C17_sweeps_compose (jc : JustCache α) (t1 t2 : Time)
    (hs : jc.cleanupStrategy = cleanupStrategyOnTheFly
      ∨ jc.cleanupStrategy = cleanupStrategyCollect)
    (hle : t1 ≤ t2) :
    (jc.Clean t1).Clean t2 = jc.Clean t2
      ∧ (jc.Clean t2).Clean t2 = jc.Clean t2
      ∧ (∀ k it, (jc.Clean t2).items.lookup k = some it → jc.items.lookup k = some it) := by
  have hcomp : ∀ (a b : Time), a ≤ b → (jc.Clean a).Clean b = jc.Clean b := by
    intro a b hab
    have hs1 : (jc.Clean a).cleanupStrategy = cleanupStrategyOnTheFly
        ∨ (jc.Clean a).cleanupStrategy = cleanupStrategyCollect := by
      rw [(Clean_config jc a).1]; exact hs
    have c1 := Clean_config (jc.Clean a) b
    have c2 := Clean_config jc a
    have c3 := Clean_config jc b
    apply JustCache.ext_fields
    · rw [c1.1, c2.1, c3.1]
    · rw [c1.2.1, c2.2.1, c3.2.1]
    · apply AList.ext
      rw [Clean_entries _ b hs1, Clean_entries jc a hs, Clean_entries jc b hs,
        List.filter_filter]
      apply List.filter_congr
      intro x _
      by_cases hx : b.After x.2.deadAfter = true
      · simp [hx]
      · have hb : ¬ x.2.deadAfter < b := by simpa [Time.After] using hx
        have ha : ¬ x.2.deadAfter < a := fun h => hb (lt_of_lt_of_le h hab)
        have hx2 : a.After x.2.deadAfter = false := by simpa [Time.After] using ha
        simp [hx, hx2]
    · rw [c1.2.2, c2.2.2, c3.2.2]
  refine ⟨hcomp t1 t2 hle, hcomp t2 t2 (le_refl t2), ?_⟩
  intro k it hit
  exact ((Clean_lookup jc t2 hs k it).mp hit).1

/-- C17 under the Collect strategy with entries expiring at 10, 20 and 30,
swept at 15 and then at 25. -/
theorem C17_sweeps_compose_witness :
    ((setEach ((New 50 5 : JustCache Nat).WithStrategy cleanupStrategyCollect)
          [⟨0, "a", some 1, 10⟩, ⟨0, "b", some 2, 20⟩, ⟨0, "c", some 3, 30⟩]).2.cleanupStrategy
          = cleanupStrategyOnTheFly
        ∨ (setEach ((New 50 5 : JustCache Nat).WithStrategy cleanupStrategyCollect)
          [⟨0, "a", some 1, 10⟩, ⟨0, "b", some 2, 20⟩, ⟨0, "c", some 3, 30⟩]).2.cleanupStrategy
          = cleanupStrategyCollect)
      ∧ (15 : Time) ≤ 25
      ∧ ((setEach ((New 50 5 : JustCache Nat).WithStrategy cleanupStrategyCollect)
          [⟨0, "a", some 1, 10⟩, ⟨0, "b", some 2, 20⟩, ⟨0, "c", some 3, 30⟩]).2.Clean 15).Keys.1
          = ["c", "b"]
      ∧ ((setEach ((New 50 5 : JustCache Nat).WithStrategy cleanupStrategyCollect)
          [⟨0, "a", some 1, 10⟩, ⟨0, "b", some 2, 20⟩, ⟨0, "c", some 3, 30⟩]).2.Clean 25).Keys.1
          = ["c"]
      ∧ (((setEach ((New 50 5 : JustCache Nat).WithStrategy cleanupStrategyCollect)
          [⟨0, "a", some 1, 10⟩, ⟨0, "b", some 2, 20⟩, ⟨0, "c", some 3, 30⟩]).2.Clean 15).Clean 25)
          = (setEach ((New 50 5 : JustCache Nat).WithStrategy cleanupStrategyCollect)
          [⟨0, "a", some 1, 10⟩, ⟨0, "b", some 2, 20⟩, ⟨0, "c", some 3, 30⟩]).2.Clean 25 :=
  ⟨by decide, by decide, by decide, by decide,
    (C17_sweeps_compose (setEach ((New 50 5 : JustCache Nat).WithStrategy cleanupStrategyCollect)
      [⟨0, "a", some 1, 10⟩, ⟨0, "b", some 2, 20⟩, ⟨0, "c", some 3, 30⟩]).2 15 25
      (by decide) (by decide)).1⟩

end jcache

/-! ## The window of the Collect strategy -/

namespace jcache

open JustCache

variable {α : Type}

/-- Under the Collect strategy `Clean` is the scan of `dead` followed by the
deleting loop, with nothing in between. -/
theorem Clean_collect_eq (jc : JustCache α) (now : Time)
    (hs : jc.cleanupStrategy = cleanupStrategyCollect) :
    jc.Clean now = deleteDead (jc.dead now).2 (jc.dead now).1 := by
  have h0 : jc.cleanupStrategy ≠ cleanupStrategyOnTheFly := by
    rw [hs]; decide
  unfold Clean
  rw [if_neg h0, if_pos hs]
  rfl

/-- The deleting loop removes every key of its list, whatever the map holds
under that key when the loop runs. -/
theorem deleteDead_removes (jc : JustCache α) (dead : List String) (k : String)
    (hk : k ∈ dead) : ((deleteDead jc dead).Has k).1 = false := by
  have hent := foldl_erase_entries dead jc.items
  have hnot : k ∉ (deleteDead jc dead).items := by
    intro hmem
    have hmem2 : k ∈ ((deleteDead jc dead).items.entries).keys := hmem
    obtain ⟨it, hit⟩ := List.exists_of_mem_keys hmem2
    have hit2 : (⟨k, it⟩ : Σ _ : String, item α)
        ∈ jc.items.entries.filter (fun e => decide (e.1 ∉ dead)) := by
      rw [← hent]; exact hit
    have := (List.mem_filter.mp hit2).2
    simp [hk] at this
  unfold Has
  simp only
  rw [AList.lookup_eq_none.mpr hnot]
  rfl

/-- C18: the scan-then-delete window of Collect. There are a cache using the
Collect strategy, a key k and a reference time now such that the scan dead(now)
lists k, a Set(k, v, ttl) made after the scan succeeds and stores a deadline
later than now, and the deleting loop run after that Set with the scanned list
deletes k, although the entry it deletes is not expired at now and a sweep
Clean(now) started after the Set would keep k. The cache holds "a" expiring at
10, now is 20, and the Set is made at 20 with ttl 100. -/
theorem C18_collect_window :
    ∃ (jc : JustCache Nat) (k : String) (now clock : Time) (v : Option Nat) (ttl : Duration),
      jc.cleanupStrategy = cleanupStrategyCollect
        ∧ k ∈ (jc.dead now).1
        ∧ ((jc.dead now).2.Set clock k v ttl).1 = none
        ∧ ((jc.dead now).2.Set clock k v ttl).2.items.lookup k = some ⟨v, clock.Add ttl⟩
        ∧ now.After (clock.Add ttl) = false
        ∧ now < clock.Add ttl
        ∧ ((deleteDead ((jc.dead now).2.Set clock k v ttl).2 (jc.dead now).1).Has k).1 = false
        ∧ ((((jc.dead now).2.Set clock k v ttl).2.Clean now).Has k).1 = true :=
  ⟨(setEach ((New 50 5 : JustCache Nat).WithStrategy cleanupStrategyCollect)
      [⟨0, "a", some 1, 10⟩]).2, "a", 20, 20, some 2, 100,
    by decide, by decide, by decide, by decide, by decide, by decide, by decide, by decide⟩

end jcache

/-! ## Errors -/

namespace jcache

open JustCache

variable {α : Type}

/-- C19: error matching. For every JCError e and every error err, e.Is(err)
is true exactly when err is not nil and err.Error() is the message of e. Hence
the error of every rejected Set matches ErrorCacheIsFull under errors.Is and
under the method Is, and its message is "items is full". -/
theorem C19_error_matching (e : JCError) (err : GoError) (jc : JustCache α)
    (clock : Time) (k : String) (v : Option α) (ttl : Duration) :
    (JCError.Is e err = true ↔ ∃ x, err = some x ∧ x.Error = JCError.Error e)
      ∧ (∀ r, (jc.Set clock k v ttl).1 = some r →
          errorsIs (jc.Set clock k v ttl).1 (some (ErrorValue.ofJCError ErrorCacheIsFull)) = true
            ∧ JCError.Is ErrorCacheIsFull (asError (jc.Set clock k v ttl).1) = true
            ∧ JCError.Error r = "items is full") := by
  constructor
  · cases err with
    | none => simp [JCError.Is]
    | some x => simp [JCError.Is, JCError.Error]
  · intro r hr
    by_cases h : jc.items.len ≥ jc.capacity
    · rw [Set_of_ge jc clock k v ttl h] at hr ⊢
      simp only [Option.some.injEq] at hr
      subst hr
      show errorsIs (some ErrorCacheIsFull) (some (ErrorValue.ofJCError ErrorCacheIsFull)) = true
        ∧ JCError.Is ErrorCacheIsFull (asError (some ErrorCacheIsFull)) = true
        ∧ JCError.Error ErrorCacheIsFull = "items is full"
      exact ⟨by decide, by decide, by decide⟩
    · rw [Set_of_lt jc clock k v ttl (not_le.mp h)] at hr
      simp at hr

/-- The third call of `TestCapacity` returns an error that `errors.Is` matches
with `ErrorCacheIsFull`, and that is not nil. -/
theorem TestCapacity_error :
    errorsIs
        ((setEach ((New 50 10000 : JustCache Nat).WithCapacity 2)
          [⟨0, "a", some 1, 1000⟩, ⟨1, "b", some 2, 1000⟩]).2.Set 2 "c" (some 3) 1000).1
        (some (ErrorValue.ofJCError ErrorCacheIsFull)) = true
      ∧ ((setEach ((New 50 10000 : JustCache Nat).WithCapacity 2)
          [⟨0, "a", some 1, 1000⟩, ⟨1, "b", some 2, 1000⟩]).2.Set 2 "c" (some 3) 1000).1
        = some "items is full"
      ∧ JCError.Is "items is full" (some (ErrorValue.other "items is full")) = true
      ∧ JCError.Is "items is full" (some (ErrorValue.other "other")) = false
      ∧ JCError.Is "items is full" none = false := by
  decide

end jcache

/-! ## The mutex -/

namespace jcache

open JustCache

variable {α : Type}

/-- The lock state after two sequences of events in a row. -/
theorem heldAfter_append (xs ys : List Event) :
    ∀ (h : Held), heldAfter h (xs ++ ys)
      = match heldAfter h xs with
        | none => none
        | some h2 => heldAfter h2 ys := by
  induction xs with
  | nil => intro h; rfl
  | cons e xs ih =>
    intro h
    simp only [List.cons_append, heldAfter]
    cases h.after e with
    | none => rfl
    | some h2 => exact ih h2

/-- A loop over the map starts with a read of the map. -/
theorem rangeEvents_head (m : ItemMap α) (body : (Σ _ : String, item α) → List Event) :
    ∃ rest, rangeEvents m body = Event.read :: rest := by
  have hgen : ∀ (l : List (Σ _ : String, item α)) (init : List Event),
      ∃ rest, l.foldl (fun events e => events ++ Event.read :: body e) init = init ++ rest := by
    intro l
    induction l with
    | nil => intro init; exact ⟨[], by simp⟩
    | cons e l ih =>
      intro init
      obtain ⟨rest, hrest⟩ := ih (init ++ Event.read :: body e)
      exact ⟨Event.read :: body e ++ rest, by simp [List.foldl_cons, hrest]⟩
  obtain ⟨rest, hrest⟩ := hgen m.entries [Event.read]
  exact ⟨rest, by simpa [rangeEvents] using hrest⟩

/-- A loop with a body that touches neither the mutex nor the map keeps a held
lock as it is. -/
theorem rangeEvents_held (m : ItemMap α) (h : Held) (hh : h ≠ Held.free) :
    heldAfter h (rangeEvents m (fun _ => [])) = some h := by
  have hread : h.after Event.read = some h := by
    cases h with
    | free => exact absurd rfl hh
    | shared => rfl
    | exclusive => rfl
  have hgen : ∀ (l : List (Σ _ : String, item α)) (init : List Event),
      heldAfter h init = some h →
      heldAfter h (l.foldl (fun events _ => events ++ [Event.read]) init) = some h := by
    intro l
    induction l with
    | nil => intro init hinit; exact hinit
    | cons e l ih =>
      intro init hinit
      apply ih
      rw [heldAfter_append, hinit]
      simp [heldAfter, hread]
  exact hgen m.entries [Event.read] (by simp [heldAfter, hread])

/-- The methods that take the lock before they touch the map: Get, Has,
Item, Del, Keys, Items, Clear, the scan `dead`, and Clean under Collect. -/
theorem covered_methods (jc : JustCache α) (key : String) (now : Time) :
    lockCovers (jc.GetEvents key) = true
      ∧ lockCovers (jc.HasEvents key) = true
      ∧ lockCovers (jc.ItemEvents key) = true
      ∧ lockCovers (jc.DelEvents key) = true
      ∧ lockCovers jc.KeysEvents = true
      ∧ lockCovers jc.ItemsEvents = true
      ∧ lockCovers jc.ClearEvents = true
      ∧ lockCovers (jc.deadEvents now) = true
      ∧ (jc.cleanupStrategy = cleanupStrategyCollect → lockCovers (jc.CleanEvents now) = true) := by
  have hshared := rangeEvents_held jc.items Held.shared (by decide)
  have hdead : heldAfter Held.free (jc.deadEvents now) = some Held.free := by
    have a1 : heldAfter Held.free ([Event.RLock] ++ rangeEvents jc.items (fun _ => []))
        = some Held.shared := by
      rw [heldAfter_append]; exact hshared
    unfold deadEvents
    rw [heldAfter_append, a1]
    rfl
  have hkeys : heldAfter Held.free
      ([Event.RLock, Event.read] ++ rangeEvents jc.items (fun _ => []) ++ [Event.RUnlock])
        = some Held.free := by
    have a1 : heldAfter Held.free
        ([Event.RLock, Event.read] ++ rangeEvents jc.items (fun _ => [])) = some Held.shared := by
      rw [heldAfter_append]; exact hshared
    rw [heldAfter_append, a1]
    rfl
  have hwrites : ∀ (l : List String),
      heldAfter Held.exclusive (l.map (fun _ => Event.write)) = some Held.exclusive := by
    intro l
    induction l with
    | nil => rfl
    | cons _ l ih => exact ih
  refine ⟨rfl, rfl, rfl, rfl, ?_, ?_, rfl, ?_, ?_⟩
  · exact decide_eq_true hkeys
  · exact decide_eq_true hkeys
  · exact decide_eq_true hdead
  · intro hs
    have h0 : jc.cleanupStrategy ≠ cleanupStrategyOnTheFly := by
      rw [hs]; decide
    have h1 : heldAfter Held.free (jc.deadEvents now ++ [Event.Lock]) = some Held.exclusive := by
      rw [heldAfter_append, hdead]; rfl
    have h2 : heldAfter Held.free
        (jc.deadEvents now ++ [Event.Lock] ++ (jc.dead now).1.map (fun _ => Event.write))
          = some Held.exclusive := by
      rw [heldAfter_append, h1]; exact hwrites _
    have h3 : heldAfter Held.free
        (jc.deadEvents now ++ [Event.Lock] ++ (jc.dead now).1.map (fun _ => Event.write)
          ++ [Event.Unlock]) = some Held.free := by
      rw [heldAfter_append, h2]; rfl
    unfold CleanEvents
    rw [if_neg h0, if_pos hs]
    exact decide_eq_true h3

/-- Method `Set` reads `len(jc.items)` with no lock held, on every cache. -/
theorem SetEvents_uncovered (jc : JustCache α) : lockCovers jc.SetEvents = false := by
  simp [lockCovers, SetEvents, heldAfter, Held.after]

/-- Method `Clean` under OnTheFly starts its loop over the map with no lock
held, on every cache. -/
theorem CleanEvents_onTheFly_uncovered (jc : JustCache α) (now : Time)
    (hs : jc.cleanupStrategy = cleanupStrategyOnTheFly) :
    lockCovers (jc.CleanEvents now) = false := by
  unfold CleanEvents
  rw [if_pos hs]
  obtain ⟨rest, hrest⟩ := rangeEvents_head jc.items
    (fun e => if now.After e.2.deadAfter then [Event.Lock, Event.write, Event.Unlock] else [])
  rw [hrest]
  simp [lockCovers, heldAfter, Held.after]

/-- C20 fails on the code. On the cache New(50, 2) holding "a" with deadline
10 and using OnTheFly, Set makes the events read, Lock, write, Unlock: the
capacity check reads the map before the lock is taken. Clean(20) makes the
events read, read, Lock, write, Unlock: the loop reads the map with no lock and
only the delete is under the lock. Del and the scan `dead` on the same cache
take the lock first. -/
theorem C20_unlocked_access :
    SetEvents ((New 50 2 : JustCache Nat).Set 0 "a" (some 1) 10).2
        = [Event.read, Event.Lock, Event.write, Event.Unlock]
      ∧ lockCovers (SetEvents ((New 50 2 : JustCache Nat).Set 0 "a" (some 1) 10).2) = false
      ∧ CleanEvents ((New 50 2 : JustCache Nat).Set 0 "a" (some 1) 10).2 20
        = [Event.read, Event.read, Event.Lock, Event.write, Event.Unlock]
      ∧ lockCovers (CleanEvents ((New 50 2 : JustCache Nat).Set 0 "a" (some 1) 10).2 20) = false
      ∧ lockCovers (DelEvents ((New 50 2 : JustCache Nat).Set 0 "a" (some 1) 10).2 "a") = true
      ∧ lockCovers (deadEvents ((New 50 2 : JustCache Nat).Set 0 "a" (some 1) 10).2 20) = true := by
  decide

end jcache
